import Mathlib

/-!
Verification of the NetAuth nsscache cache-construction and index-generation
engine against its specification.

The repository contains two implementations of the engine:

* `src/cmd/nsscached/main.go` — the self-contained `nsscached` binary
  (`genPasswd`, `genGroup`, `checkShell`, `writeMap`, `genIndex`,
  `writeIndex`, and the write sequence in `main`);
* `src/cachefiller.go` (driven by `src/main.go`) — the `NetAuthCacheFiller`
  (`findGroups`, `findEntities`, `findMembers`, `hasBadShell`, and the
  `Fill*Cache` methods feeding the external nsscache-go writer).

Go maps are embedded as association lists (`List (String × α)`) with
last-write-wins insertion.  The position of an entry in the association list
plays the role of Go's map iteration order: Go randomizes that order on every
run, so a re-run of the program corresponds to a permutation of the
association list.  Go strings are embedded as `String`, and Go's byte-level
view of a string (`len`, file contents) through the UTF-8 encoding
`strBytes`, which agrees with Go's `[]byte(s)`.
-/

namespace Nss

/-- Byte-level UTF-8 encoding of a single character, matching how Go stores
characters of a string as bytes. -/
def charBytes (c : Char) : List Nat :=
  let n := c.toNat
  if n < 0x80 then [n]
  else if n < 0x800 then [0xC0 + n / 0x40, 0x80 + n % 0x40]
  else if n < 0x10000 then
    [0xE0 + n / 0x1000, 0x80 + (n / 0x40) % 0x40, 0x80 + n % 0x40]
  else
    [0xF0 + n / 0x40000, 0x80 + (n / 0x1000) % 0x40,
     0x80 + (n / 0x40) % 0x40, 0x80 + n % 0x40]

/-- Byte strings of a list of characters, front to back. -/
def chsBytes : List Char → List Nat
  | [] => []
  | c :: cs => charBytes c ++ chsBytes cs

/-- The bytes of a Go string: UTF-8 encoding of its characters.  `len(s)` in
Go is `(strBytes s).length`. -/
def strBytes (s : String) : List Nat :=
  chsBytes s.data

theorem chsBytes_append (l₁ l₂ : List Char) :
    chsBytes (l₁ ++ l₂) = chsBytes l₁ ++ chsBytes l₂ := by
  induction l₁ with
  | nil => rfl
  | cons c cs ih => simp [chsBytes, ih]

theorem strBytes_append (a b : String) :
    strBytes (a ++ b) = strBytes a ++ strBytes b := by
  cases a with
  | mk da =>
    cases b with
    | mk db => exact chsBytes_append da db

/-- Go map lookup `m[k]` (as the `value, ok` form), on the association-list
embedding of a Go map. -/
def mapLookup {α : Type} (m : List (String × α)) (k : String) : Option α :=
  (m.find? (fun p => p.1 = k)).map (·.2)

/-- Go map assignment `m[k] = v`: overwrite the value if the key is present,
otherwise add a new entry.  (The association lists built here always have
distinct keys, so updating the first matching entry is exactly the Go map
assignment.) -/
def mapInsert {α : Type} : List (String × α) → String → α → List (String × α)
  | [], k, v => [(k, v)]
  | p :: t, k, v => if p.1 = k then (k, v) :: t else p :: mapInsert t k v

/-- Build a Go map by iterating over a list and conditionally inserting one
entry per element, as the `for … { if … {continue}; m[k] = v }` loops of the
source do. -/
def buildMap {α β : Type} (f : β → Option (String × α)) (l : List β) :
    List (String × α) :=
  l.foldl (fun m b => match f b with
    | none => m
    | some (k, v) => mapInsert m k v) []

@[simp]
theorem mapLookup_nil {α : Type} (k : String) :
    mapLookup ([] : List (String × α)) k = none := rfl

@[simp]
theorem mapLookup_cons {α : Type} (p : String × α) (m : List (String × α))
    (k : String) :
    mapLookup (p :: m) k = if p.1 = k then some p.2 else mapLookup m k := by
  by_cases h : p.1 = k <;> simp [mapLookup, List.find?, h]

theorem mapLookup_insert_self {α : Type} (m : List (String × α)) (k : String)
    (v : α) : mapLookup (mapInsert m k v) k = some v := by
  induction m with
  | nil => simp [mapInsert]
  | cons p t ih =>
    by_cases hp : p.1 = k
    · simp [mapInsert, hp]
    · simp [mapInsert, hp, ih]

theorem mapLookup_insert_ne {α : Type} (m : List (String × α)) (k k' : String)
    (v : α) (h : k' ≠ k) :
    mapLookup (mapInsert m k v) k' = mapLookup m k' := by
  induction m with
  | nil =>
    simp only [mapInsert, mapLookup_cons, mapLookup_nil]
    rw [if_neg (fun hk => h hk.symm)]
  | cons p t ih =>
    have hk : ¬ (k = k') := fun hk => h hk.symm
    simp only [mapInsert]
    by_cases hp : p.1 = k
    · rw [if_pos hp, mapLookup_cons, mapLookup_cons,
        if_neg (show ¬ ((k, v).1 = k') from hk),
        if_neg (show ¬ (p.1 = k') from by rw [hp]; exact hk)]
    · rw [if_neg hp, mapLookup_cons, mapLookup_cons, ih]

/-! ## Data model

`Protocol.Entity` / `pb.Entity` and `Protocol.Group` / `pb.Group`, restricted
to the fields the engine reads.  Protobuf getters return zero values on a nil
message, so `meta` is an `Option` and the getters below default to `""`. -/

/-- The EntityMeta fields used by the engine: primary group, GECOS, home
directory and shell. -/
structure EntMeta where
  primaryGroup : String
  gecos : String
  home : String
  shell : String
  deriving DecidableEq, Repr

/-- A directory entity (account): ID string, numeric ID, optional metadata. -/
structure Entity where
  id : String
  number : Int
  meta : Option EntMeta
  deriving DecidableEq, Repr

/-- A directory group: name and numeric ID. -/
structure Group where
  name : String
  number : Int
  deriving DecidableEq, Repr

/-- `e.GetMeta().GetPrimaryGroup()`: `""` when the meta message is nil. -/
def entPG (e : Entity) : String :=
  match e.meta with
  | none => ""
  | some m => m.primaryGroup

/-- `e.GetMeta().GetHome()`: `""` when the meta message is nil. -/
def entHome (e : Entity) : String :=
  match e.meta with
  | none => ""
  | some m => m.home

/-- `e.GetMeta().GetShell()`: `""` when the meta message is nil. -/
def entShell (e : Entity) : String :=
  match e.meta with
  | none => ""
  | some m => m.shell

/-- The process configuration consumed by both implementations: the
`min-uid`/`min-gid` thresholds, the default shell and home-directory
template, and the allow-list of shells read from `/etc/shells`. -/
structure Config where
  minUID : Int
  minGID : Int
  defShell : String
  defHome : String
  shells : List String
  deriving DecidableEq, Repr

/-! ## nsscached: passwd generation (`src/cmd/nsscached/main.go`) -/

/-- The `checkShell` function of nsscached: scan `systemShells` for the
requested shell and fall back to the configured default shell. -/
def checkShell (shells : List String) (defShell : String) (shell : String) :
    String :=
  match shells with
  | [] => defShell
  | s :: rest => if shell = s then s else checkShell rest defShell shell

/-- The body of the `genPasswd` loop for one entity: `none` models `continue`
(entity dropped), `some line` the appended passwd line
`id:x:number:pgid:gecos:home:shell`. -/
def passwdLine (cfg : Config) (grpMap : List (String × Group)) (e : Entity) :
    Option String :=
  if e.number < cfg.minUID then none
  else
    match e.meta with
    | none => none
    | some m =>
      match mapLookup grpMap m.primaryGroup with
      | none => none
      | some grp =>
        let homedir := if m.home = "" then cfg.defHome.replace "{UID}" e.id
          else m.home
        let shell := checkShell cfg.shells cfg.defShell m.shell
        some (e.id ++ ":x:" ++ toString e.number ++ ":" ++
          toString grp.number ++ ":" ++ m.gecos ++ ":" ++ homedir ++ ":" ++
          shell)

/-- The `sort.Slice` call of `genPasswd`: sort entities by ascending numeric
ID.  (Go's sort is an unstable deterministic sort; any result is weakly
increasing in `number`, which is all that is used.) -/
def sortEnts (l : List Entity) : List Entity :=
  List.insertionSort (fun a b => a.number ≤ b.number) l

/-- `genPasswd`: sort the entities, then emit one passwd line per retained
entity. -/
def genPasswd (cfg : Config) (entList : List Entity)
    (grpMap : List (String × Group)) : List String :=
  (sortEnts entList).filterMap (passwdLine cfg grpMap)

/-! ## nsscached: group generation (`src/cmd/nsscached/main.go`) -/

/-- The first loop of `genGroup`: for every entity in `entList` (unfiltered),
append its ID to the member list of every group reported by
`nacl.ListGroups(e.GetID(), *indirects)`, here abstracted as the function
`entGroups` from an entity ID to group names. -/
def entGroupsMapBuild (entList : List Entity)
    (entGroups : String → List String) : List (String × List String) :=
  entList.foldl
    (fun m e =>
      (entGroups e.id).foldl
        (fun m' gname =>
          mapInsert m' gname (((mapLookup m' gname).getD []) ++ [e.id]))
        m)
    []

/-- `strings.Join(l, ",")`. -/
def joinComma : List String → String
  | [] => ""
  | [x] => x
  | x :: rest => x ++ "," ++ joinComma rest

/-- The `sort.Slice` call of `genGroup`: sort groups by ascending numeric
ID. -/
def sortGroups (l : List Group) : List Group :=
  List.insertionSort (fun a b => a.number ≤ b.number) l

/-- One line of the group map: `name:x:number:members`.  A group absent from
the membership map gets an empty member string, exactly as the `ok` branch in
the source leaves `members` at `""`. -/
def groupLine (m : List (String × List String)) (g : Group) : String :=
  g.name ++ ":x:" ++ toString g.number ++ ":" ++
    joinComma ((mapLookup m g.name).getD [])

/-- `genGroup`: build the per-group member lists from all entities, sort the
group list by number, and emit one line per group in `grpList`.  Note that
`genGroup` receives the full group list and applies no `min-gid` filter. -/
def genGroup (entList : List Entity) (grpList : List Group)
    (entGroups : String → List String) : List String :=
  (sortGroups grpList).map (groupLine (entGroupsMapBuild entList entGroups))

/-- The loop in `main` that turns the group list into `grpMap`, skipping
groups whose number is below `min-gid`.  The same code shape is
`findGroups` in `src/cachefiller.go` (which additionally mirrors the numbers
into `pgroups`; the two maps always have identical keys, so a single map of
groups represents both). -/
def filterGroupsMap (grpList : List Group) (minGID : Int) :
    List (String × Group) :=
  buildMap (fun g => if g.number < minGID then none else some (g.name, g))
    grpList

/-! ## nsscached: map writing and index generation -/

/-- `strings.Join(lines, "\n")`. -/
def joinNl : List String → String
  | [] => ""
  | [l] => l
  | l :: rest => l ++ "\n" ++ joinNl rest

/-- `writeMap` file contents: the lines joined by newlines plus a trailing
newline. -/
def writeMapStr (lines : List String) : String :=
  joinNl lines ++ "\n"

/-- The bytes `writeMap` hands to `ioutil.WriteFile`. -/
def writeMapBytes (lines : List String) : List Nat :=
  strBytes (writeMapStr lines)

/-- Splitting a character list at every occurrence of the separator, the
behaviour of Go's `strings.Split` for the one-character separator used here
(`Split("", sep)` is `[""]`, and `n` separators yield `n+1` fields). -/
def splitOnChar (sep : Char) : List Char → List (List Char)
  | [] => [[]]
  | c :: cs =>
    if c = sep then [] :: splitOnChar sep cs
    else
      match splitOnChar sep cs with
      | [] => [[c]]
      | h :: t => (c :: h) :: t

/-- The colon-separated fields of a line, `strings.Split(l, ":")`. -/
def splitCols (l : String) : List String :=
  (splitOnChar ':' l.data).map (fun cs => String.mk cs)

/-- `strings.Split(l, ":")[indexCol]`: the lookup key of one line.  The Go
expression panics when the column is out of range; theorems below therefore
carry the corresponding in-range hypothesis, and the embedding totalizes the
out-of-range case with `""`. -/
def getCol (l : String) (indexCol : Nat) : String :=
  (splitCols l).getD indexCol ""

/-- The loop of `genIndex`: walk the lines accumulating the byte offset
(`offset += len(l) + 1`) and assigning `iMap[key] = offset`. -/
def genIndexAux (indexCol : Nat) :
    List String → Nat → List (String × Nat) → List (String × Nat)
  | [], _, m => m
  | l :: ls, offset, m =>
    genIndexAux indexCol ls (offset + (strBytes l).length + 1)
      (mapInsert m (getCol l indexCol) offset)

/-- `genIndex`: map the key in column `indexCol` of each line to the byte
offset of the start of that line. -/
def genIndex (lines : List String) (indexCol : Nat) : List (String × Nat) :=
  genIndexAux indexCol lines 0 []

/-- Byte offset of the start of line `i` in the flat file: the sum of
`len(line) + 1` over the preceding lines. -/
def lineOffset (lines : List String) (i : Nat) : Nat :=
  ((lines.take i).map (fun l => (strBytes l).length + 1)).sum

/-! ## nsscached: index serialization (`writeIndex`) -/

/-- ASCII decimal digits of a natural number, as `fmt.Fprintf("%d", v)`
renders them. -/
def decDigits (v : Nat) : List Nat :=
  if v = 0 then [48] else (Nat.digits 10 v).reverse.map (fun d => 48 + d)

/-- `fmt.Fprintf(&b, "%08d", v)`: the decimal digits, left-padded with ASCII
zeros to a width of (at least) 8. -/
def pad8 (v : Nat) : List Nat :=
  List.replicate (8 - (decDigits v).length) 48 ++ decDigits v

/-- One record of the index file, as the `writeIndex` loop body emits it: the
key bytes, one 0x00 separator, the offset as `%08d`, then `32-len(key)-1`
0x00 padding bytes (none when that count is not positive), then a newline. -/
def writeIndexRecord (key : String) (v : Nat) : List Nat :=
  strBytes key ++ [0] ++ pad8 v ++
    List.replicate (32 - (strBytes key).length - 1) 0 ++ [10]

/-- `sort.Strings(keyList)`: ascending lexicographic sort.  (On UTF-8 encoded
strings, bytewise order — which Go uses — agrees with the code-point order of
Lean's `String` order.) -/
def sortKeys (keys : List String) : List String :=
  List.insertionSort (fun a b => a ≤ b) keys

/-- The bytes `writeIndex` hands to `ioutil.WriteFile`: one record per key in
sorted key order. -/
def writeIndexBytes (index : List (String × Nat)) : List Nat :=
  (sortKeys (index.map Prod.fst)).foldr
    (fun k acc => writeIndexRecord k ((mapLookup index k).getD 0) ++ acc) []

/-! ## nsscached: the write sequence at the end of `main`

The abstract parameter `wr` tells, per target path, whether the
`ioutil.WriteFile` call succeeds; `main` logs a failure and falls through to
the next write in every case. -/

/-- The six output paths written by `main`, in program order. -/
def mainWriteLocs (pMapFile gMapFile : String) : List String :=
  [pMapFile, gMapFile,
   pMapFile ++ ".ixname", pMapFile ++ ".ixuid",
   gMapFile ++ ".ixname", gMapFile ++ ".ixgid"]

/-- The write sequence of `main`: each write is its own `if err := …` block
with no early return, so every file is attempted in order and failures are
only logged.  Returns the attempted writes (path and contents, in order) and
the list of paths whose write failed (the logged errors, in order). -/
def mainWrites (wr : String → Bool) (pMapFile gMapFile : String)
    (passwd group : List String) :
    List (String × List Nat) × List String :=
  let a1 := (pMapFile, writeMapBytes passwd)
  let e1 : List String := if wr pMapFile then [] else [pMapFile]
  let a2 := (gMapFile, writeMapBytes group)
  let e2 := if wr gMapFile then e1 else e1 ++ [gMapFile]
  let a3 := (pMapFile ++ ".ixname", writeIndexBytes (genIndex passwd 0))
  let e3 := if wr (pMapFile ++ ".ixname") then e2
    else e2 ++ [pMapFile ++ ".ixname"]
  let a4 := (pMapFile ++ ".ixuid", writeIndexBytes (genIndex passwd 2))
  let e4 := if wr (pMapFile ++ ".ixuid") then e3
    else e3 ++ [pMapFile ++ ".ixuid"]
  let a5 := (gMapFile ++ ".ixname", writeIndexBytes (genIndex group 0))
  let e5 := if wr (gMapFile ++ ".ixname") then e4
    else e4 ++ [gMapFile ++ ".ixname"]
  let a6 := (gMapFile ++ ".ixgid", writeIndexBytes (genIndex group 2))
  let e6 := if wr (gMapFile ++ ".ixgid") then e5
    else e5 ++ [gMapFile ++ ".ixgid"]
  ([a1, a2, a3, a4, a5, a6], e6)

/-! ## cachefiller (`src/cachefiller.go`) -/

/-- `hasBadShell`: true when the shell is not in the `AllowedShells` list. -/
def hasBadShell (shells : List String) (s : String) : Bool :=
  match shells with
  | [] => true
  | a :: rest => if a = s then false else hasBadShell rest s

/-- The body of the `findEntities` loop for one entity: `none` models
`continue` (entity dropped for a low UID or an invalid primary group),
`some e'` the entity as stored into `nc.entities` after the shell and home
fixups.  When the meta message is nil yet the (empty) primary-group name is a
retained group, the Go code dereferences the nil `Meta` and panics; that
branch keeps the entity unchanged here and is unreachable for the inputs any
theorem below quantifies over. -/
def retainFix (cfg : Config) (groups : List (String × Group)) (e : Entity) :
    Option Entity :=
  if e.number < cfg.minUID then none
  else if (mapLookup groups (entPG e)).isSome then
    match e.meta with
    | some m =>
      some { e with meta := some { m with
        shell := if hasBadShell cfg.shells m.shell then cfg.defShell
          else m.shell,
        home := if m.home = "" then cfg.defHome.replace "{UID}" e.id
          else m.home } }
    | none => some e
  else none

/-- `findEntities`: build `nc.entities`, keyed by entity ID. -/
def findEntities (cfg : Config) (groups : List (String × Group))
    (ents : List Entity) : List (String × Entity) :=
  buildMap (fun e => (retainFix cfg groups e).map (fun e' => (e'.id, e'))) ents

/-- Adding one member to a membership set (`tmp[g][id] = struct{}{}` on a set
that already exists). -/
def setInsert (s : List String) (x : String) : List String :=
  if x ∈ s then s else s ++ [x]

/-- First phase of `findMembers`: for every retained group, collect the
member IDs reported by `nc.c.GroupMembers` (abstracted as `memberOf`),
discarding IDs that are not retained entities. -/
def tmpInit (groups : List (String × Group)) (entities : List (String × Entity))
    (memberOf : String → List String) : List (String × List String) :=
  groups.map (fun p =>
    (p.1, (memberOf p.1).foldl
      (fun s mid => if (mapLookup entities mid).isSome then setInsert s mid
        else s) []))

/-- `tmp[k][x] = struct{}{}`: add `x` to the set stored at key `k`.  When `k`
is not a key of `tmp` the Go code assigns into a nil map and panics; that
case is a no-op here and is unreachable in the pipeline, because every
retained entity's primary group is a retained group. -/
def setAddAtKey (tmp : List (String × List String)) (k x : String) :
    List (String × List String) :=
  if (mapLookup tmp k).isSome then
    tmp.map (fun q => if q.1 = k then (q.1, setInsert q.2 x) else q)
  else tmp

/-- Second phase of `findMembers`: unconditionally add every retained entity
to the set of its own primary group. -/
def addPrimaries (tmp : List (String × List String))
    (entities : List (String × Entity)) : List (String × List String) :=
  entities.foldl (fun t p => setAddAtKey t (entPG p.2) p.2.id) tmp

/-- `findMembers`: member sets per retained group.  The final Go loop copies
each set into a slice in map-iteration order; the embedding keeps the set as
a list (in first-insertion order), and run-to-run order variation is
modelled by permuting association lists where it matters. -/
def findMembers (groups : List (String × Group))
    (entities : List (String × Entity)) (memberOf : String → List String) :
    List (String × List String) :=
  addPrimaries (tmpInit groups entities memberOf) entities

/-- Go's `uint32(n)` conversion of an `int32` value. -/
def toU32 (n : Int) : Nat :=
  (n % 4294967296).toNat

/-- One entry of the passwd cache as `FillPasswdCache` adds it (the library
`cache.PasswdEntry`). -/
structure PasswdEntry where
  name : String
  passwd : String
  uid : Nat
  gid : Nat
  gecos : String
  dir : String
  shell : String
  deriving DecidableEq, Repr

/-- `FillPasswdCache`: one cache entry per stored entity, in the iteration
order of the `nc.entities` map — which is the order of the association list
here, and is randomized between runs by the Go runtime.  A primary group
missing from `nc.pgroups` yields the zero value 0, exactly as in Go. -/
def fillPasswdEntries (entities : List (String × Entity))
    (groups : List (String × Group)) : List PasswdEntry :=
  entities.map (fun p =>
    { name := p.2.id
      passwd := "*"
      uid := toU32 p.2.number
      gid := (mapLookup groups (entPG p.2)).elim 0 (fun g => toU32 g.number)
      gecos := ""
      dir := entHome p.2
      shell := entShell p.2 })

/-- Modelled from the spec: the passwd flat-file line layout of section 6
(`name:x:uid:gid:gecos:home:shell`), as rendered by the external nsscache-go
writer, which is outside `src/` and writes the entries in the order they
were added to the cache. -/
def passwdEntryLine (p : PasswdEntry) : String :=
  p.name ++ ":x:" ++ toString p.uid ++ ":" ++ toString p.gid ++ ":" ++
    p.gecos ++ ":" ++ p.dir ++ ":" ++ p.shell

/-- Modelled from the spec: the passwd flat file produced by one run of the
cachefiller pipeline, lines in cache order each terminated by a newline. -/
def cfPasswdFile (entities : List (String × Entity))
    (groups : List (String × Group)) : String :=
  writeMapStr ((fillPasswdEntries entities groups).map passwdEntryLine)

/-! ## Claim C1: writeIndex record layout -/

theorem decDigits_length_le (v : Nat) (h : v < 100000000) :
    (decDigits v).length ≤ 8 := by
  unfold decDigits
  by_cases hv : v = 0
  · simp [hv]
  · simp only [hv, if_false, List.length_map, List.length_reverse]
    have h8 : v < 10 ^ 8 := by norm_num; exact h
    have hlog : Nat.log 10 v < 8 :=
      (Nat.lt_pow_iff_log_lt (by norm_num) hv).mp h8
    rw [Nat.digits_len 10 v (by norm_num) hv]
    omega

theorem pad8_length (v : Nat) (h : v < 100000000) : (pad8 v).length = 8 := by
  have := decDigits_length_le v h
  unfold pad8
  rw [List.length_append, List.length_replicate]
  omega

/-- Claim C1 (amended): each `writeIndex` record is the key bytes, a single
0x00 separator, the offset as 8 zero-padded ASCII decimal digits (for
offsets below 10^8), and `31 - len(key)` zero-padding bytes, so the record
is exactly 40 bytes before its trailing newline whenever the key is at most
31 bytes long; for keys of 31 bytes or more the padding is truncated to zero
extra bytes. -/
theorem c1_record_format (key : String) (off : Nat)
    (hk : (strBytes key).length ≤ 31) (hoff : off < 100000000) :
    writeIndexRecord key off =
      strBytes key ++ [0] ++ pad8 off ++
        List.replicate (31 - (strBytes key).length) 0 ++ [10] ∧
    (pad8 off).length = 8 ∧
    (writeIndexRecord key off).length = 41 := by
  have hp := pad8_length off hoff
  have h32 : 32 - (strBytes key).length - 1 = 31 - (strBytes key).length := by
    omega
  refine ⟨by rw [writeIndexRecord, h32], hp, ?_⟩
  rw [writeIndexRecord]
  simp only [List.length_append, List.length_replicate, List.length_cons,
    List.length_nil, hp]
  omega

theorem c1_record_format_witness :
    writeIndexRecord "alice" 0 =
      strBytes "alice" ++ [0] ++ pad8 0 ++
        List.replicate (31 - (strBytes "alice").length) 0 ++ [10] ∧
    (pad8 0).length = 8 ∧
    (writeIndexRecord "alice" 0).length = 41 :=
  c1_record_format "alice" 0 (by decide) (by decide)

/-- Claim C1 is false as stated: for the key `alice` (5 bytes, at most 23
bytes long) and offset 0, the index file consists of a single record of 41
bytes — 40 bytes before the trailing newline, not 32. -/
theorem c1_counterexample :
    (strBytes "alice").length = 5 ∧
    writeIndexBytes [("alice", 0)] = writeIndexRecord "alice" 0 ∧
    (writeIndexRecord "alice" 0).length = 41 ∧ 41 ≠ 32 + 1 := by
  refine ⟨by decide, by decide, by decide, by decide⟩

/-! ## Claim C2: groups below min-gid and the group output -/

/-- Claim C2 fails on `nsscached`: `genGroup` receives the full, unfiltered
group list and emits a line for every group, so the group `low` with number
1999 — below the min-gid threshold 2000 — appears in the group flat file.
The threshold is only applied when building `grpMap` (so no account keeps
`low` as a valid primary group), which this evaluation also shows. -/
theorem c2_low_gid_group_emitted :
    genGroup [] [⟨"low", 1999⟩] (fun _ => []) = ["low:x:1999:"] ∧
    (1999 : Int) < 2000 ∧
    filterGroupsMap [⟨"low", 1999⟩] 2000 = [] := by
  refine ⟨by decide, by decide, by decide⟩

/-! ## Claim C3: rejected accounts and group member lists -/

/-- Claim C3 fails on `nsscached`: the entity `lowuser` with number 1999 is
rejected from the passwd output (min-uid 2000), yet `genGroup` builds its
member lists from the unfiltered entity list, so `lowuser` appears in the
member list of `staff`.  The cachefiller's `findMembers` does discard it:
with `lowuser` absent from the retained entities, the `staff` member set
stays empty. -/
theorem c3_rejected_member_emitted :
    genPasswd ⟨2000, 2000, "/bin/nologin", "/tmp/{UID}", ["/bin/sh"]⟩
      [⟨"lowuser", 1999, some ⟨"staff", "", "/h", "/bin/sh"⟩⟩]
      (filterGroupsMap [⟨"staff", 2000⟩] 2000) = [] ∧
    genGroup [⟨"lowuser", 1999, some ⟨"staff", "", "/h", "/bin/sh"⟩⟩]
      [⟨"staff", 2000⟩] (fun _ => ["staff"]) = ["staff:x:2000:lowuser"] ∧
    findMembers (filterGroupsMap [⟨"staff", 2000⟩] 2000)
      (findEntities ⟨2000, 2000, "/bin/nologin", "/tmp/{UID}", ["/bin/sh"]⟩
        (filterGroupsMap [⟨"staff", 2000⟩] 2000)
        [⟨"lowuser", 1999, some ⟨"staff", "", "/h", "/bin/sh"⟩⟩])
      (fun _ => ["lowuser"]) = [("staff", [])] := by
  refine ⟨by decide, by decide, by decide⟩

/-! ## Claim C9: independence of the six writes -/

/-- Claim C9: for any outcome of the individual file writes, `main` attempts
every one of the six output files exactly once, in program order, with the
contents computed from the in-memory line lists; the failed writes are
exactly the logged errors and a failure never suppresses a later attempt. -/
theorem c9_writes_attempted (wr : String → Bool) (pMapFile gMapFile : String)
    (passwd group : List String) :
    (mainWrites wr pMapFile gMapFile passwd group).1 =
      [(pMapFile, writeMapBytes passwd),
       (gMapFile, writeMapBytes group),
       (pMapFile ++ ".ixname", writeIndexBytes (genIndex passwd 0)),
       (pMapFile ++ ".ixuid", writeIndexBytes (genIndex passwd 2)),
       (gMapFile ++ ".ixname", writeIndexBytes (genIndex group 0)),
       (gMapFile ++ ".ixgid", writeIndexBytes (genIndex group 2))] ∧
    (mainWrites wr pMapFile gMapFile passwd group).1.map Prod.fst =
      mainWriteLocs pMapFile gMapFile ∧
    (mainWrites wr pMapFile gMapFile passwd group).2 =
      (mainWriteLocs pMapFile gMapFile).filter (fun loc => !(wr loc)) := by
  refine ⟨rfl, rfl, ?_⟩
  show (if wr (gMapFile ++ ".ixgid") then _ else _) = _
  simp only [mainWriteLocs, List.filter]
  cases wr pMapFile <;> cases wr gMapFile <;>
    cases wr (pMapFile ++ ".ixname") <;> cases wr (pMapFile ++ ".ixuid") <;>
    cases wr (gMapFile ++ ".ixname") <;> cases wr (gMapFile ++ ".ixgid") <;>
    simp

/-! ## Helper lemmas about map building -/

theorem mem_mapInsert {α : Type} (k : String) (v : α) (p : String × α) :
    ∀ (m : List (String × α)), p ∈ mapInsert m k v → p = (k, v) ∨ p ∈ m := by
  intro m
  induction m with
  | nil =>
    intro h
    rw [mapInsert] at h
    exact Or.inl (List.mem_singleton.mp h)
  | cons q t ih =>
    intro h
    by_cases hq : q.1 = k
    · rw [mapInsert, if_pos hq] at h
      rcases List.mem_cons.mp h with h | h
      · exact Or.inl h
      · exact Or.inr (List.mem_cons_of_mem q h)
    · rw [mapInsert, if_neg hq] at h
      rcases List.mem_cons.mp h with h | h
      · exact Or.inr (h ▸ List.mem_cons_self q t)
      · rcases ih h with h' | h'
        · exact Or.inl h'
        · exact Or.inr (List.mem_cons_of_mem q h')

theorem mapLookup_insert_isSome {α : Type} (m : List (String × α))
    (k k' : String) (v : α) (h : (mapLookup m k').isSome) :
    (mapLookup (mapInsert m k v) k').isSome := by
  by_cases hk : k' = k
  · rw [hk, mapLookup_insert_self]; rfl
  · rw [mapLookup_insert_ne m k k' v hk]; exact h

theorem mem_buildMap_aux {α β : Type} (f : β → Option (String × α)) :
    ∀ (l : List β) (m : List (String × α)) (p : String × α),
    p ∈ l.foldl (fun m b => match f b with
      | none => m
      | some (k, v) => mapInsert m k v) m →
    p ∈ m ∨ ∃ b ∈ l, f b = some p := by
  intro l
  induction l with
  | nil => intro m p h; exact Or.inl h
  | cons b t ih =>
    intro m p h
    simp only [List.foldl_cons] at h
    cases hf : f b with
    | none =>
      simp only [hf] at h
      rcases ih _ p h with h' | ⟨b', hb', hfb'⟩
      · exact Or.inl h'
      · exact Or.inr ⟨b', List.mem_cons_of_mem b hb', hfb'⟩
    | some kv =>
      obtain ⟨k, v⟩ := kv
      simp only [hf] at h
      rcases ih _ p h with h' | ⟨b', hb', hfb'⟩
      · rcases mem_mapInsert k v p _ h' with h'' | h''
        · exact Or.inr ⟨b, List.mem_cons_self b t, by rw [hf, h'']⟩
        · exact Or.inl h''
      · exact Or.inr ⟨b', List.mem_cons_of_mem b hb', hfb'⟩

/-- Every entry of a built map comes from some list element. -/
theorem mem_buildMap {α β : Type} (f : β → Option (String × α)) (l : List β)
    (p : String × α) (h : p ∈ buildMap f l) : ∃ b ∈ l, f b = some p := by
  rcases mem_buildMap_aux f l [] p h with h' | h'
  · cases h'
  · exact h'

theorem lookup_foldl_isSome {α β : Type} (f : β → Option (String × α)) :
    ∀ (l : List β) (m : List (String × α)) (k : String),
    (mapLookup m k).isSome →
    (mapLookup (l.foldl (fun m b => match f b with
      | none => m
      | some (k, v) => mapInsert m k v) m) k).isSome := by
  intro l
  induction l with
  | nil => intro m k h; exact h
  | cons b t ih =>
    intro m k h
    simp only [List.foldl_cons]
    apply ih
    cases hf : f b with
    | none => simpa [hf] using h
    | some kv => simpa [hf] using mapLookup_insert_isSome m kv.1 k kv.2 h

theorem lookup_buildMap_isSome {α β : Type} (f : β → Option (String × α)) :
    ∀ (l : List β) (m : List (String × α)) (b : β) (k : String) (v : α),
    b ∈ l → f b = some (k, v) →
    (mapLookup (l.foldl (fun m b => match f b with
      | none => m
      | some (k, v) => mapInsert m k v) m) k).isSome := by
  intro l
  induction l with
  | nil => intro _ _ _ _ h; cases h
  | cons b' t ih =>
    intro m b k v hb hf
    simp only [List.foldl_cons]
    rcases List.mem_cons.mp hb with rfl | hb'
    · apply lookup_foldl_isSome
      rw [hf, mapLookup_insert_self]
      rfl
    · exact ih _ b k v hb' hf

/-! ## Shell checking lemmas -/

theorem checkShell_eq (shells : List String) (defShell shell : String) :
    checkShell shells defShell shell =
      if shell ∈ shells then shell else defShell := by
  induction shells with
  | nil => simp [checkShell]
  | cons a rest ih =>
    by_cases h : shell = a
    · simp [checkShell, h]
    · have : ¬ (a = shell) := fun h' => h h'.symm
      simp [checkShell, h, this, ih]

theorem hasBadShell_eq (shells : List String) (s : String) :
    hasBadShell shells s = !(decide (s ∈ shells)) := by
  induction shells with
  | nil => simp [hasBadShell]
  | cons a rest ih =>
    by_cases h : a = s
    · simp [hasBadShell, h]
    · have : ¬ (s = a) := fun h' => h h'.symm
      simp [hasBadShell, h, this, ih]

/-! ## Properties of retainFix -/

theorem retainFix_spec (cfg : Config) (groups : List (String × Group))
    (e : Entity) (m : EntMeta) (hm : e.meta = some m)
    (hn : ¬ (e.number < cfg.minUID))
    (hg : (mapLookup groups m.primaryGroup).isSome) :
    retainFix cfg groups e = some { e with meta := some { m with
      shell := if m.shell ∈ cfg.shells then m.shell else cfg.defShell,
      home := if m.home = "" then cfg.defHome.replace "{UID}" e.id
        else m.home } } := by
  have hpg : entPG e = m.primaryGroup := by rw [entPG, hm]
  rw [retainFix, if_neg hn, hpg, if_pos hg, hm]
  have hshell : (if hasBadShell cfg.shells m.shell then cfg.defShell
      else m.shell) =
      if m.shell ∈ cfg.shells then m.shell else cfg.defShell := by
    rw [hasBadShell_eq]
    by_cases h : m.shell ∈ cfg.shells <;> simp [h]
  simp only [hshell]

theorem retainFix_fields (cfg : Config) (groups : List (String × Group))
    (e e' : Entity) (h : retainFix cfg groups e = some e') :
    e'.number = e.number ∧ e'.id = e.id ∧ entPG e' = entPG e ∧
      ¬ (e.number < cfg.minUID) ∧ (mapLookup groups (entPG e)).isSome := by
  rw [retainFix] at h
  by_cases hn : e.number < cfg.minUID
  · rw [if_pos hn] at h; cases h
  · rw [if_neg hn] at h
    by_cases hg : (mapLookup groups (entPG e)).isSome
    · rw [if_pos hg] at h
      cases hm : e.meta with
      | some m =>
        rw [hm] at h
        cases h
        exact ⟨rfl, rfl, by simp [entPG, hm], hn, hg⟩
      | none =>
        rw [hm] at h
        cases h
        exact ⟨rfl, rfl, rfl, hn, hg⟩
    · rw [if_neg hg] at h; cases h

theorem retainFix_isSome (cfg : Config) (groups : List (String × Group))
    (e : Entity) (hn : ¬ (e.number < cfg.minUID))
    (hg : (mapLookup groups (entPG e)).isSome) :
    ∃ e', retainFix cfg groups e = some e' ∧ e'.id = e.id := by
  rw [retainFix, if_neg hn, if_pos hg]
  cases hm : e.meta with
  | some m => exact ⟨_, rfl, rfl⟩
  | none => exact ⟨e, rfl, rfl⟩

/-! ## Claim C6: shell allow-list and home-directory defaulting -/

/-- Claim C6: for a retained account, the emitted passwd record carries the
account shell exactly when that shell is in the configured allow-list and the
default shell otherwise, and carries the home directory unchanged unless it
is empty, in which case the home-directory template is substituted with every
`{UID}` token replaced by the account identifier.  The first conjunct is the
nsscached `genPasswd`/`checkShell` path, the second the cachefiller
`findEntities`/`hasBadShell` path. -/
theorem c6_shell_home_defaulting :
    (∀ (cfg : Config) (grpMap : List (String × Group)) (e : Entity)
       (m : EntMeta) (grp : Group),
      e.meta = some m → ¬ (e.number < cfg.minUID) →
      mapLookup grpMap m.primaryGroup = some grp →
      passwdLine cfg grpMap e = some (e.id ++ ":x:" ++ toString e.number ++
        ":" ++ toString grp.number ++ ":" ++ m.gecos ++ ":" ++
        (if m.home = "" then cfg.defHome.replace "{UID}" e.id else m.home) ++
        ":" ++ (if m.shell ∈ cfg.shells then m.shell else cfg.defShell))) ∧
    (∀ (cfg : Config) (groups : List (String × Group)) (e : Entity)
       (m : EntMeta),
      e.meta = some m → ¬ (e.number < cfg.minUID) →
      (mapLookup groups m.primaryGroup).isSome →
      retainFix cfg groups e = some { e with meta := some { m with
        shell := if m.shell ∈ cfg.shells then m.shell else cfg.defShell,
        home := if m.home = "" then cfg.defHome.replace "{UID}" e.id
          else m.home } }) := by
  constructor
  · intro cfg grpMap e m grp hm hn hg
    rw [passwdLine, if_neg hn, hm]
    simp only [hg, checkShell_eq]
  · intro cfg groups e m hm hn hg
    exact retainFix_spec cfg groups e m hm hn hg

theorem c6_shell_home_defaulting_witness :
    passwdLine ⟨2000, 2000, "/bin/bash", "/home/{UID}", ["/bin/bash", "/bin/sh"]⟩
      [("staff", ⟨"staff", 2000⟩)]
      ⟨"alice", 2001, some ⟨"staff", "gec", "", "/bin/zsh"⟩⟩ =
      some ("alice" ++ ":x:" ++ toString (2001 : Int) ++ ":" ++
        toString (2000 : Int) ++ ":" ++ "gec" ++ ":" ++
        (if ("" : String) = "" then ("/home/{UID}" : String).replace "{UID}" "alice"
          else "") ++ ":" ++
        (if ("/bin/zsh" : String) ∈ ["/bin/bash", "/bin/sh"] then "/bin/zsh"
          else "/bin/bash")) ∧
    retainFix ⟨2000, 2000, "/bin/bash", "/home/{UID}", ["/bin/bash", "/bin/sh"]⟩
      [("staff", ⟨"staff", 2000⟩)]
      ⟨"alice", 2001, some ⟨"staff", "gec", "", "/bin/zsh"⟩⟩ =
      some { id := "alice", number := 2001, meta := some {
        primaryGroup := "staff", gecos := "gec",
        home := if ("" : String) = ""
          then ("/home/{UID}" : String).replace "{UID}" "alice" else "",
        shell := if ("/bin/zsh" : String) ∈ ["/bin/bash", "/bin/sh"]
          then "/bin/zsh" else "/bin/bash" } } :=
  ⟨c6_shell_home_defaulting.1
     ⟨2000, 2000, "/bin/bash", "/home/{UID}", ["/bin/bash", "/bin/sh"]⟩
     [("staff", ⟨"staff", 2000⟩)]
     ⟨"alice", 2001, some ⟨"staff", "gec", "", "/bin/zsh"⟩⟩
     ⟨"staff", "gec", "", "/bin/zsh"⟩ ⟨"staff", 2000⟩
     rfl (by decide) (by decide),
   c6_shell_home_defaulting.2
     ⟨2000, 2000, "/bin/bash", "/home/{UID}", ["/bin/bash", "/bin/sh"]⟩
     [("staff", ⟨"staff", 2000⟩)]
     ⟨"alice", 2001, some ⟨"staff", "gec", "", "/bin/zsh"⟩⟩
     ⟨"staff", "gec", "", "/bin/zsh"⟩
     rfl (by decide) (by decide)⟩

/-! ## Claim C7: the min-uid threshold -/

/-- Claim C7: accounts with numeric ID strictly below min-uid never appear in
the passwd output (first conjunct for nsscached `genPasswd`, third for
cachefiller `findEntities`), and an otherwise valid account with numeric ID
exactly equal to min-uid does appear (second conjunct for `genPasswd`,
fourth for `findEntities`). -/
theorem c7_minuid_threshold :
    (∀ (cfg : Config) (grpMap : List (String × Group)) (e : Entity),
      e.number < cfg.minUID → passwdLine cfg grpMap e = none) ∧
    (∀ (cfg : Config) (grpMap : List (String × Group)) (entList : List Entity)
       (e : Entity) (m : EntMeta) (grp : Group),
      e ∈ entList → e.number = cfg.minUID → e.meta = some m →
      mapLookup grpMap m.primaryGroup = some grp →
      ∃ l, passwdLine cfg grpMap e = some l ∧
        l ∈ genPasswd cfg entList grpMap) ∧
    (∀ (cfg : Config) (groups : List (String × Group)) (ents : List Entity)
       (p : String × Entity),
      p ∈ findEntities cfg groups ents → ¬ (p.2.number < cfg.minUID)) ∧
    (∀ (cfg : Config) (groups : List (String × Group)) (ents : List Entity)
       (e : Entity),
      e ∈ ents → e.number = cfg.minUID →
      (mapLookup groups (entPG e)).isSome →
      (mapLookup (findEntities cfg groups ents) e.id).isSome) := by
  refine ⟨?_, ?_, ?_, ?_⟩
  · intro cfg grpMap e h
    rw [passwdLine, if_pos h]
  · intro cfg grpMap entList e m grp he hnum hm hg
    have hn : ¬ (e.number < cfg.minUID) := by omega
    have hsome : ∃ l, passwdLine cfg grpMap e = some l := by
      rw [passwdLine, if_neg hn, hm]
      simp only [hg]
      exact ⟨_, rfl⟩
    obtain ⟨l, hl⟩ := hsome
    refine ⟨l, hl, ?_⟩
    rw [genPasswd]
    exact List.mem_filterMap.mpr
      ⟨e, (List.perm_insertionSort _ entList).mem_iff.mpr he, hl⟩
  · intro cfg groups ents p hp
    rcases mem_buildMap _ ents p hp with ⟨e, he, hf⟩
    rcases Option.map_eq_some'.mp hf with ⟨e', hre, hpe⟩
    have := (retainFix_fields cfg groups e e' hre)
    rw [← hpe]
    simpa [this.1] using this.2.2.2.1
  · intro cfg groups ents e he hnum hg
    have hn : ¬ (e.number < cfg.minUID) := by omega
    obtain ⟨e', hre, hid⟩ := retainFix_isSome cfg groups e hn hg
    rw [findEntities, buildMap]
    apply lookup_buildMap_isSome
      (fun e => (retainFix cfg groups e).map (fun x => (x.id, x))) ents [] e
      e.id e' he
    rw [hre]
    simp [hid]

theorem c7_minuid_threshold_witness :
    passwdLine ⟨2000, 2000, "/bin/nologin", "/tmp/{UID}", ["/bin/sh"]⟩
      [("staff", ⟨"staff", 2000⟩)]
      ⟨"lowuser", 1999, some ⟨"staff", "", "/h", "/bin/sh"⟩⟩ = none ∧
    (∃ l, passwdLine ⟨2000, 2000, "/bin/nologin", "/tmp/{UID}", ["/bin/sh"]⟩
      [("staff", ⟨"staff", 2000⟩)]
      ⟨"edge", 2000, some ⟨"staff", "", "/h", "/bin/sh"⟩⟩ = some l ∧
      l ∈ genPasswd ⟨2000, 2000, "/bin/nologin", "/tmp/{UID}", ["/bin/sh"]⟩
        [⟨"edge", 2000, some ⟨"staff", "", "/h", "/bin/sh"⟩⟩]
        [("staff", ⟨"staff", 2000⟩)]) ∧
    (mapLookup (findEntities
      ⟨2000, 2000, "/bin/nologin", "/tmp/{UID}", ["/bin/sh"]⟩
      [("staff", ⟨"staff", 2000⟩)]
      [⟨"edge", 2000, some ⟨"staff", "", "/h", "/bin/sh"⟩⟩]) "edge").isSome :=
  ⟨c7_minuid_threshold.1 _ _ _ (by decide),
   c7_minuid_threshold.2.1 _ _ _ _ ⟨"staff", "", "/h", "/bin/sh"⟩
     ⟨"staff", 2000⟩ (List.mem_singleton.mpr rfl) (by decide) rfl (by decide),
   c7_minuid_threshold.2.2.2 _ _ _ ⟨"edge", 2000, some ⟨"staff", "", "/h", "/bin/sh"⟩⟩
     (List.mem_singleton.mpr rfl) (by decide) (by decide)⟩

/-! ## Membership set lemmas (cachefiller findMembers) -/

theorem mem_setInsert_self (s : List String) (x : String) :
    x ∈ setInsert s x := by
  rw [setInsert]
  by_cases h : x ∈ s
  · rwa [if_pos h]
  · rw [if_neg h]
    exact List.mem_append_right s (List.mem_singleton.mpr rfl)

theorem mem_setInsert_of_mem (s : List String) (x y : String) (h : y ∈ s) :
    y ∈ setInsert s x := by
  rw [setInsert]
  by_cases hx : x ∈ s
  · rwa [if_pos hx]
  · rw [if_neg hx]
    exact List.mem_append_left _ h

theorem lookup_map_setAdd (t : List (String × List String)) (k x : String) :
    mapLookup (t.map (fun q => if q.1 = k then (q.1, setInsert q.2 x) else q))
      k = (mapLookup t k).map (fun s => setInsert s x) := by
  induction t with
  | nil => rfl
  | cons q t' ih =>
    by_cases hq : q.1 = k
    · simp [hq]
    · simp [hq, ih]

theorem lookup_map_setAdd_ne (t : List (String × List String)) (k k' x : String)
    (hne : k' ≠ k) :
    mapLookup (t.map (fun q => if q.1 = k then (q.1, setInsert q.2 x) else q))
      k' = mapLookup t k' := by
  induction t with
  | nil => rfl
  | cons q t' ih =>
    simp only [List.map_cons, mapLookup_cons]
    by_cases hq : q.1 = k
    · rw [if_pos hq]
      have hq'' : ¬ (q.1 = k') := fun h => hne (by rw [← h, hq])
      simp [hq'', ih]
    · rw [if_neg hq]
      by_cases hq' : q.1 = k'
      · simp [hq']
      · simp [hq', ih]

theorem lookup_setAddAtKey_self (t : List (String × List String))
    (k x : String) (s : List String) (h : mapLookup t k = some s) :
    mapLookup (setAddAtKey t k x) k = some (setInsert s x) := by
  rw [setAddAtKey, if_pos (by rw [h]; rfl), lookup_map_setAdd, h]
  rfl

theorem lookup_setAddAtKey_ne (t : List (String × List String))
    (k k' x : String) (hne : k' ≠ k) :
    mapLookup (setAddAtKey t k x) k' = mapLookup t k' := by
  rw [setAddAtKey]
  by_cases hs : (mapLookup t k).isSome
  · rw [if_pos hs, lookup_map_setAdd_ne t k k' x hne]
  · rw [if_neg hs]

theorem lookup_setAddAtKey_isSome (t : List (String × List String))
    (k x k' : String) :
    (mapLookup (setAddAtKey t k x) k').isSome = (mapLookup t k').isSome := by
  by_cases hk : k' = k
  · subst hk
    cases h : mapLookup t k' with
    | none => rw [setAddAtKey, if_neg (by rw [h]; simp), h]
    | some s => rw [lookup_setAddAtKey_self t k' x s h]; rfl
  · rw [lookup_setAddAtKey_ne t k k' x hk]

theorem addPrimaries_preserve :
    ∀ (l : List (String × Entity)) (t : List (String × List String))
      (k x : String) (s : List String),
    mapLookup t k = some s → x ∈ s →
    ∃ s', mapLookup (addPrimaries t l) k = some s' ∧ x ∈ s' := by
  intro l
  induction l with
  | nil => intro t k x s h hx; exact ⟨s, h, hx⟩
  | cons q l' ih =>
    intro t k x s h hx
    show ∃ s', mapLookup (addPrimaries (setAddAtKey t (entPG q.2) q.2.id) l')
      k = some s' ∧ x ∈ s'
    by_cases hk : k = entPG q.2
    · exact ih _ k x (setInsert s q.2.id)
        (by rw [hk] at h ⊢; exact lookup_setAddAtKey_self t _ q.2.id s h)
        (mem_setInsert_of_mem s q.2.id x hx)
    · exact ih _ k x s (by rw [lookup_setAddAtKey_ne t _ k q.2.id hk, h]) hx

theorem addPrimaries_mem :
    ∀ (l : List (String × Entity)) (t : List (String × List String))
      (p : String × Entity),
    p ∈ l → (mapLookup t (entPG p.2)).isSome →
    ∃ mem, mapLookup (addPrimaries t l) (entPG p.2) = some mem ∧
      p.2.id ∈ mem := by
  intro l
  induction l with
  | nil => intro t p h; cases h
  | cons q l' ih =>
    intro t p hp hs
    show ∃ mem, mapLookup (addPrimaries (setAddAtKey t (entPG q.2) q.2.id) l')
      (entPG p.2) = some mem ∧ p.2.id ∈ mem
    rcases List.mem_cons.mp hp with rfl | hp'
    · obtain ⟨s, hls⟩ := Option.isSome_iff_exists.mp hs
      exact addPrimaries_preserve l' _ (entPG p.2) p.2.id (setInsert s p.2.id)
        (lookup_setAddAtKey_self t (entPG p.2) p.2.id s hls)
        (mem_setInsert_self s p.2.id)
    · exact ih _ p hp' (by rwa [lookup_setAddAtKey_isSome])

theorem lookup_tmpInit_isSome (groups : List (String × Group))
    (entities : List (String × Entity)) (memberOf : String → List String)
    (k : String) :
    (mapLookup (tmpInit groups entities memberOf) k).isSome =
      (mapLookup groups k).isSome := by
  induction groups with
  | nil => rfl
  | cons p t ih =>
    by_cases hp : p.1 = k
    · simp [tmpInit, hp]
    · simpa [tmpInit, hp] using ih

/-! ## Claim C4: every retained account is in its primary group's set -/

/-- Claim C4: after `findMembers`, every retained account's identifier is a
member of the membership set of its own primary group, for every possible
result of the directory member queries (`memberOf`). -/
theorem c4_primary_group_membership (cfg : Config)
    (groups : List (String × Group)) (ents : List Entity)
    (memberOf : String → List String) (p : String × Entity)
    (hp : p ∈ findEntities cfg groups ents) :
    ∃ mem, mapLookup
        (findMembers groups (findEntities cfg groups ents) memberOf)
        (entPG p.2) = some mem ∧
      p.2.id ∈ mem := by
  rcases mem_buildMap _ ents p hp with ⟨e, _, hf⟩
  rcases Option.map_eq_some'.mp hf with ⟨e', hre, hpe⟩
  have hfields := retainFix_fields cfg groups e e' hre
  have hsome : (mapLookup groups (entPG p.2)).isSome := by
    rw [← hpe]
    simpa [hfields.2.2.1] using hfields.2.2.2.2
  rw [findMembers]
  exact addPrimaries_mem _ _ p hp
    (by rwa [lookup_tmpInit_isSome])

theorem c4_primary_group_membership_witness :
    ∃ mem, mapLookup
        (findMembers (filterGroupsMap [⟨"staff", 2000⟩] 2000)
          (findEntities ⟨2000, 2000, "/bin/nologin", "/tmp/{UID}", ["/bin/sh"]⟩
            (filterGroupsMap [⟨"staff", 2000⟩] 2000)
            [⟨"bob", 2001, some ⟨"staff", "", "/home/bob", "/bin/sh"⟩⟩])
          (fun _ => ["alice"]))
        (entPG ⟨"bob", 2001,
          some ⟨"staff", "", "/home/bob", "/bin/sh"⟩⟩) = some mem ∧
      (Entity.mk "bob" 2001
        (some ⟨"staff", "", "/home/bob", "/bin/sh"⟩)).id ∈ mem :=
  c4_primary_group_membership
    ⟨2000, 2000, "/bin/nologin", "/tmp/{UID}", ["/bin/sh"]⟩
    (filterGroupsMap [⟨"staff", 2000⟩] 2000)
    [⟨"bob", 2001, some ⟨"staff", "", "/home/bob", "/bin/sh"⟩⟩]
    (fun _ => ["alice"])
    ("bob", ⟨"bob", 2001, some ⟨"staff", "", "/home/bob", "/bin/sh"⟩⟩)
    (by decide)

/-! ## genIndex: offsets and overwrite behaviour -/

theorem genIndexAux_no_occurrence (c : Nat) :
    ∀ (ls : List String) (off : Nat) (m : List (String × Nat)) (k : String),
    (∀ l ∈ ls, getCol l c ≠ k) →
    mapLookup (genIndexAux c ls off m) k = mapLookup m k := by
  intro ls
  induction ls with
  | nil => intro off m k _; rfl
  | cons l ls ih =>
    intro off m k h
    rw [genIndexAux,
      ih _ _ k (fun l' hl' => h l' (List.mem_cons_of_mem l hl'))]
    exact mapLookup_insert_ne m (getCol l c) k off
      (Ne.symm (h l (List.mem_cons_self l ls)))

theorem genIndexAux_last_occurrence (c : Nat) :
    ∀ (ls : List String) (off : Nat) (m : List (String × Nat)) (jl : Nat)
      (hj : jl < ls.length),
    (∀ (j2 : Nat) (h2 : j2 < ls.length), jl < j2 →
      getCol (ls.get ⟨j2, h2⟩) c ≠ getCol (ls.get ⟨jl, hj⟩) c) →
    mapLookup (genIndexAux c ls off m) (getCol (ls.get ⟨jl, hj⟩) c) =
      some (off + lineOffset ls jl) := by
  intro ls
  induction ls with
  | nil => intro off m jl hj; exact absurd hj (Nat.not_lt_zero jl)
  | cons l ls ih =>
    intro off m jl hj hlast
    cases jl with
    | zero =>
      rw [show (l :: ls).get ⟨0, hj⟩ = l from rfl]
      have hno : ∀ l' ∈ ls, getCol l' c ≠ getCol l c := by
        intro l' hl' he
        rcases List.mem_iff_get.mp hl' with ⟨n, rfl⟩
        exact hlast (n.val + 1) (Nat.succ_lt_succ n.isLt)
          (Nat.succ_pos n.val) he
      rw [genIndexAux, genIndexAux_no_occurrence c ls _ _ _ hno,
        mapLookup_insert_self]
      simp [lineOffset]
    | succ j =>
      have hj' : j < ls.length := Nat.lt_of_succ_lt_succ hj
      rw [show (l :: ls).get ⟨j + 1, hj⟩ = ls.get ⟨j, hj'⟩ from rfl]
      have hlast' : ∀ (j2 : Nat) (h2 : j2 < ls.length), j < j2 →
          getCol (ls.get ⟨j2, h2⟩) c ≠ getCol (ls.get ⟨j, hj'⟩) c := by
        intro j2 h2 hlt
        exact hlast (j2 + 1) (Nat.succ_lt_succ h2) (Nat.succ_lt_succ hlt)
      rw [genIndexAux, ih _ _ j hj' hlast']
      congr 1
      rw [lineOffset, lineOffset, List.take_succ_cons]
      simp only [List.map_cons, List.sum_cons]
      omega

theorem keys_mapInsert {α : Type} (m : List (String × α)) (k : String)
    (v : α) :
    (mapInsert m k v).map Prod.fst =
      if k ∈ m.map Prod.fst then m.map Prod.fst
      else m.map Prod.fst ++ [k] := by
  induction m with
  | nil => simp [mapInsert]
  | cons q t ih =>
    by_cases hq : q.1 = k
    · rw [mapInsert, if_pos hq]
      have : k ∈ (q :: t).map Prod.fst := by
        simp only [List.map_cons]
        exact hq ▸ List.mem_cons_self q.1 (t.map Prod.fst)
      rw [if_pos this]
      simp [hq]
    · rw [mapInsert, if_neg hq]
      simp only [List.map_cons]
      rw [ih]
      by_cases hk : k ∈ t.map Prod.fst
      · rw [if_pos hk, if_pos (List.mem_cons_of_mem q.1 hk)]
      · rw [if_neg hk,
          if_neg (by
            intro h
            rcases List.mem_cons.mp h with h' | h'
            · exact hq h'.symm
            · exact hk h')]
        rfl

theorem mem_keys_mapInsert_self {α : Type} (m : List (String × α))
    (k : String) (v : α) : k ∈ (mapInsert m k v).map Prod.fst := by
  rw [keys_mapInsert]
  by_cases h : k ∈ m.map Prod.fst
  · rwa [if_pos h]
  · rw [if_neg h]
    exact List.mem_append_right _ (List.mem_singleton.mpr rfl)

theorem mem_keys_mapInsert_of_mem {α : Type} (m : List (String × α))
    (k x : String) (v : α) (h : x ∈ m.map Prod.fst) :
    x ∈ (mapInsert m k v).map Prod.fst := by
  rw [keys_mapInsert]
  by_cases hk : k ∈ m.map Prod.fst
  · rwa [if_pos hk]
  · rw [if_neg hk]
    exact List.mem_append_left _ h

theorem length_mapInsert {α : Type} (m : List (String × α)) (k : String)
    (v : α) :
    (mapInsert m k v).length =
      if k ∈ m.map Prod.fst then m.length else m.length + 1 := by
  have h := congrArg List.length (keys_mapInsert m k v)
  rw [List.length_map, apply_ite List.length] at h
  simpa using h

theorem genIndexAux_length_le (c : Nat) :
    ∀ (ls : List String) (off : Nat) (m : List (String × Nat)),
    (genIndexAux c ls off m).length ≤ m.length + ls.length := by
  intro ls
  induction ls with
  | nil => intro off m; simp [genIndexAux]
  | cons l ls ih =>
    intro off m
    rw [genIndexAux]
    have h1 := ih (off + (strBytes l).length + 1)
      (mapInsert m (getCol l c) off)
    have h2 := length_mapInsert m (getCol l c) off
    by_cases hk : getCol l c ∈ m.map Prod.fst
    · rw [if_pos hk] at h2
      simp only [List.length_cons]
      omega
    · rw [if_neg hk] at h2
      simp only [List.length_cons]
      omega

theorem genIndexAux_length_lt (c : Nat) :
    ∀ (ls : List String) (off : Nat) (m : List (String × Nat)),
    ((∃ l ∈ ls, getCol l c ∈ m.map Prod.fst) ∨
      ¬ (ls.map (fun l => getCol l c)).Nodup) →
    (genIndexAux c ls off m).length < m.length + ls.length := by
  intro ls
  induction ls with
  | nil =>
    intro off m h
    rcases h with ⟨l, hl, _⟩ | h
    · cases hl
    · exact absurd List.nodup_nil h
  | cons l ls ih =>
    intro off m h
    rw [genIndexAux]
    have h2 := length_mapInsert m (getCol l c) off
    by_cases hk : getCol l c ∈ m.map Prod.fst
    · rw [if_pos hk] at h2
      have := genIndexAux_length_le c ls (off + (strBytes l).length + 1)
        (mapInsert m (getCol l c) off)
      simp only [List.length_cons]
      omega
    · rw [if_neg hk] at h2
      have hstep : (genIndexAux c ls (off + (strBytes l).length + 1)
          (mapInsert m (getCol l c) off)).length <
          (mapInsert m (getCol l c) off).length + ls.length := by
        apply ih
        rcases h with ⟨l', hl', hmem⟩ | hnod
        · rcases List.mem_cons.mp hl' with rfl | hl''
          · exact absurd hmem hk
          · exact Or.inl ⟨l', hl'',
              mem_keys_mapInsert_of_mem m (getCol l c) _ off hmem⟩
        · rw [List.map_cons, List.nodup_cons] at hnod
          push_neg at hnod
          by_cases hin : getCol l c ∈ ls.map (fun l => getCol l c)
          · rcases List.mem_map.mp hin with ⟨l', hl', hcol⟩
            exact Or.inl ⟨l', hl',
              hcol ▸ mem_keys_mapInsert_self m (getCol l c) off⟩
          · exact Or.inr (hnod hin)
      simp only [List.length_cons]
      omega

/-! ## Flat file bytes and line offsets -/

/-- The bytes of the flat file, line by line, each line followed by its
newline terminator. -/
def flatBytes : List String → List Nat
  | [] => []
  | l :: ls => strBytes l ++ 10 :: flatBytes ls

theorem writeMapBytes_eq_flat :
    ∀ (lines : List String), lines ≠ [] →
    writeMapBytes lines = flatBytes lines := by
  intro lines
  induction lines with
  | nil => intro h; exact absurd rfl h
  | cons l ls ih =>
    intro _
    cases ls with
    | nil =>
      show strBytes (l ++ "\n") = strBytes l ++ 10 :: []
      rw [strBytes_append]
      rfl
    | cons l2 ls2 =>
      show strBytes ((l ++ "\n" ++ joinNl (l2 :: ls2)) ++ "\n") = _
      rw [strBytes_append, strBytes_append, strBytes_append]
      have hr : flatBytes (l2 :: ls2) = writeMapBytes (l2 :: ls2) :=
        (ih (by simp)).symm
      rw [flatBytes, hr]
      show _ = strBytes l ++ 10 :: strBytes (joinNl (l2 :: ls2) ++ "\n")
      rw [strBytes_append]
      show strBytes l ++ [10] ++ strBytes (joinNl (l2 :: ls2)) ++ [10] = _
      rw [show strBytes "\n" = [10] from rfl]
      simp [List.append_assoc]

theorem flatBytes_drop :
    ∀ (lines : List String) (i : Nat) (hi : i < lines.length),
    ∃ rest, (flatBytes lines).drop (lineOffset lines i) =
      strBytes (lines.get ⟨i, hi⟩) ++ 10 :: rest := by
  intro lines
  induction lines with
  | nil => intro i hi; exact absurd hi (Nat.not_lt_zero i)
  | cons l ls ih =>
    intro i hi
    cases i with
    | zero =>
      refine ⟨flatBytes ls, ?_⟩
      rw [show lineOffset (l :: ls) 0 = 0 from rfl, List.drop_zero]
      rfl
    | succ j =>
      have hj : j < ls.length := Nat.lt_of_succ_lt_succ hi
      obtain ⟨rest, hrest⟩ := ih j hj
      refine ⟨rest, ?_⟩
      have hoff : lineOffset (l :: ls) (j + 1) =
          ((strBytes l).length + 1) + lineOffset ls j := by
        rw [lineOffset, lineOffset, List.take_succ_cons]
        simp only [List.map_cons, List.sum_cons]
      rw [hoff, show (l :: ls).get ⟨j + 1, hi⟩ = ls.get ⟨j, hj⟩ from rfl,
        ← hrest, flatBytes]
      rw [show (strBytes l ++ 10 :: flatBytes ls) =
        (strBytes l ++ [10]) ++ flatBytes ls by simp]
      rw [show ((strBytes l).length + 1) + lineOffset ls j =
        (strBytes l ++ [10]).length + lineOffset ls j by simp]
      rw [List.drop_append]

/-! ## Claim C5: genIndex maps keys to line start offsets -/

/-- Claim C5 (amended): when the lines carry pairwise distinct keys in the
indexed column (and the column exists in every line), `genIndex` maps the
key of each line to the byte offset of the start of that line — the sum of
`len(line) + 1` over all preceding lines — and at that byte offset in the
flat file as written by `writeMap` the line itself begins. -/
theorem c5_index_offsets (lines : List String) (c i : Nat)
    (hi : i < lines.length)
    (hkeys : (lines.map (fun l => getCol l c)).Nodup)
    (_hcols : ∀ l ∈ lines, c < (splitCols l).length) :
    mapLookup (genIndex lines c) (getCol (lines.get ⟨i, hi⟩) c) =
      some (((lines.take i).map (fun l => (strBytes l).length + 1)).sum) ∧
    ∃ rest, (writeMapBytes lines).drop
        (((lines.take i).map (fun l => (strBytes l).length + 1)).sum) =
      strBytes (lines.get ⟨i, hi⟩) ++ 10 :: rest := by
  have hinj := List.nodup_iff_injective_getElem.mp hkeys
  have hlast : ∀ (j2 : Nat) (h2 : j2 < lines.length), i < j2 →
      getCol (lines.get ⟨j2, h2⟩) c ≠ getCol (lines.get ⟨i, hi⟩) c := by
    intro j2 h2 hlt he
    have hm2 : j2 < (lines.map (fun l => getCol l c)).length := by
      simpa using h2
    have hmi : i < (lines.map (fun l => getCol l c)).length := by
      simpa using hi
    have : (⟨j2, hm2⟩ : Fin (lines.map (fun l => getCol l c)).length) =
        ⟨i, hmi⟩ := by
      apply hinj
      simpa [List.getElem_map] using he
    exact absurd (congrArg Fin.val this) (by simp; omega)
  constructor
  · have h := genIndexAux_last_occurrence c lines 0 [] i hi hlast
    rw [genIndex]
    rw [h]
    rw [Nat.zero_add]
    rfl
  · have hne : lines ≠ [] := by
      intro h
      rw [h] at hi
      exact absurd hi (Nat.not_lt_zero i)
    rw [writeMapBytes_eq_flat lines hne]
    exact flatBytes_drop lines i hi

theorem c5_index_offsets_witness :
    mapLookup (genIndex ["a:x", "b:yy"] 0) "b" = some 4 ∧
    ∃ rest, (writeMapBytes ["a:x", "b:yy"]).drop 4 =
      strBytes "b:yy" ++ 10 :: rest := by
  have h := c5_index_offsets ["a:x", "b:yy"] 0 1 (by decide) (by decide)
    (by decide)
  exact ⟨by simpa using h.1, by simpa using h.2⟩

/-- Claim C5 is false as stated: with two lines carrying the same key `a` in
column 0, `genIndex` maps the key of the first line to 4 — the offset of the
second line — not to 0, the offset of the first line. -/
theorem c5_counterexample :
    getCol "a:x" 0 = "a" ∧ getCol "a:yy" 0 = "a" ∧ lineOffset ["a:x", "a:yy"] 0 = 0 ∧
    mapLookup (genIndex ["a:x", "a:yy"] 0) "a" = some 4 ∧ (4 : Nat) ≠ 0 := by
  refine ⟨by decide, by decide, by decide, by decide, by decide⟩

/-! ## Claim C10: duplicate keys overwrite and shrink the index -/

/-- Claim C10: when two lines carry the same key in the indexed column,
`genIndex` maps that key to the byte offset of the last line carrying it
(later lines overwrite earlier entries), and the index has strictly fewer
entries than the flat file has lines. -/
theorem c10_duplicate_keys (lines : List String) (c i j : Nat)
    (hi : i < lines.length) (hj : j < lines.length) (hij : i < j)
    (hdup : getCol (lines.get ⟨j, hj⟩) c = getCol (lines.get ⟨i, hi⟩) c) :
    (∀ (jl : Nat) (hjl : jl < lines.length),
      getCol (lines.get ⟨jl, hjl⟩) c = getCol (lines.get ⟨i, hi⟩) c →
      (∀ (j2 : Nat) (h2 : j2 < lines.length), jl < j2 →
        getCol (lines.get ⟨j2, h2⟩) c ≠ getCol (lines.get ⟨jl, hjl⟩) c) →
      mapLookup (genIndex lines c) (getCol (lines.get ⟨i, hi⟩) c) =
        some (lineOffset lines jl)) ∧
    (genIndex lines c).length < lines.length := by
  constructor
  · intro jl hjl hkey hlastjl
    have h := genIndexAux_last_occurrence c lines 0 [] jl hjl hlastjl
    rw [genIndex, ← hkey, h, Nat.zero_add]
  · have hnod : ¬ (lines.map (fun l => getCol l c)).Nodup := by
      intro hnod
      have hinj := List.nodup_iff_injective_getElem.mp hnod
      have hm2 : j < (lines.map (fun l => getCol l c)).length := by
        simpa using hj
      have hmi : i < (lines.map (fun l => getCol l c)).length := by
        simpa using hi
      have : (⟨j, hm2⟩ : Fin (lines.map (fun l => getCol l c)).length) =
          ⟨i, hmi⟩ := by
        apply hinj
        simpa [List.getElem_map] using hdup
      exact absurd (congrArg Fin.val this) (by simp; omega)
    have := genIndexAux_length_lt c lines 0 [] (Or.inr hnod)
    simpa [genIndex] using this

theorem c10_duplicate_keys_witness :
    mapLookup (genIndex ["a:x", "a:yy"] 0) (getCol "a:x" 0) =
      some (lineOffset ["a:x", "a:yy"] 1) ∧
    (genIndex ["a:x", "a:yy"] 0).length < 2 := by
  have h := c10_duplicate_keys ["a:x", "a:yy"] 0 0 1 (by decide) (by decide)
    (by decide) (by decide)
  refine ⟨?_, by simpa using h.2⟩
  have h1 := h.1 1 (by decide) (by decide)
    (by intro j2 h2 hlt; simp at h2; omega)
  simpa using h1

/-! ## Claim C8: determinism between runs -/

/-- The retained entities of one `genPasswd` run, in emission order. -/
def retainedEnts (cfg : Config) (grpMap : List (String × Group))
    (entList : List Entity) : List Entity :=
  (sortEnts entList).filter (fun e => (passwdLine cfg grpMap e).isSome)

theorem filterMap_eq_filter_map {α β : Type} (f : α → Option β) (d : β) :
    ∀ (l : List α),
    l.filterMap f = (l.filter (fun a => (f a).isSome)).map
      (fun a => (f a).getD d) := by
  intro l
  induction l with
  | nil => rfl
  | cons a t ih =>
    cases hf : f a with
    | none => simp [List.filterMap_cons, List.filter_cons, hf, ih]
    | some b => simp [List.filterMap_cons, List.filter_cons, hf, ih]

theorem mapLookup_eq_some_iff {α : Type} (m : List (String × α))
    (hnod : (m.map Prod.fst).Nodup) (k : String) (v : α) :
    mapLookup m k = some v ↔ (k, v) ∈ m := by
  constructor
  · intro h
    rcases Option.map_eq_some'.mp h with ⟨p, hf, hv⟩
    have hk : p.1 = k := by simpa using List.find?_some hf
    have hm : p ∈ m := List.mem_of_find?_eq_some hf
    have : p = (k, v) := by
      cases p
      simp only at hk hv
      rw [hk, hv]
    exact this ▸ hm
  · intro h
    induction m with
    | nil => cases h
    | cons q t ih =>
      rw [List.map_cons, List.nodup_cons] at hnod
      rcases List.mem_cons.mp h with rfl | hmem
      · simp [mapLookup_cons]
      · have hq : ¬ (q.1 = k) := by
          intro hqk
          exact hnod.1 (hqk ▸ (List.mem_map.mpr ⟨(k, v), hmem, rfl⟩))
        rw [mapLookup_cons, if_neg hq]
        exact ih hnod.2 hmem

theorem mapLookup_perm {α : Type} (m₁ m₂ : List (String × α))
    (hperm : m₁.Perm m₂) (hnod : (m₁.map Prod.fst).Nodup) (k : String) :
    mapLookup m₁ k = mapLookup m₂ k := by
  have hnod₂ : (m₂.map Prod.fst).Nodup :=
    ((hperm.map Prod.fst).nodup_iff).mp hnod
  cases h₁ : mapLookup m₁ k with
  | some v =>
    have hm : (k, v) ∈ m₂ :=
      hperm.mem_iff.mp ((mapLookup_eq_some_iff m₁ hnod k v).mp h₁)
    exact ((mapLookup_eq_some_iff m₂ hnod₂ k v).mpr hm).symm
  | none =>
    cases h₂ : mapLookup m₂ k with
    | none => rfl
    | some v =>
      have hm : (k, v) ∈ m₁ :=
        hperm.mem_iff.mpr ((mapLookup_eq_some_iff m₂ hnod₂ k v).mp h₂)
      rw [(mapLookup_eq_some_iff m₁ hnod k v).mpr hm] at h₁
      cases h₁

/-- Claim C8 (amended): the nsscached engine is deterministic — `genPasswd`
emits lines for the retained entities in ascending numeric-ID order,
`genGroup` emits lines in ascending numeric-ID order of the groups, and
`writeIndex` output is invariant under the (randomized) iteration order of
the Go index map, because the keys are sorted before serialization.  (The
cachefiller implementation does not sort and is covered by the
counterexample.) -/
theorem c8_determinism_amended :
    (∀ (cfg : Config) (grpMap : List (String × Group))
       (entList : List Entity),
      genPasswd cfg entList grpMap = (retainedEnts cfg grpMap entList).map
        (fun e => (passwdLine cfg grpMap e).getD "") ∧
      List.Sorted (· ≤ ·)
        ((retainedEnts cfg grpMap entList).map (fun e => e.number))) ∧
    (∀ (entList : List Entity) (grpList : List Group)
       (entGroups : String → List String),
      genGroup entList grpList entGroups =
        (sortGroups grpList).map
          (groupLine (entGroupsMapBuild entList entGroups)) ∧
      List.Sorted (· ≤ ·) ((sortGroups grpList).map (fun g => g.number))) ∧
    (∀ (m₁ m₂ : List (String × Nat)), m₁.Perm m₂ →
      (m₁.map Prod.fst).Nodup → writeIndexBytes m₁ = writeIndexBytes m₂) := by
  refine ⟨?_, ?_, ?_⟩
  · intro cfg grpMap entList
    constructor
    · exact filterMap_eq_filter_map (passwdLine cfg grpMap) "" _
    · haveI h1 : IsTotal Entity (fun a b => a.number ≤ b.number) :=
        ⟨fun a b => Int.le_total a.number b.number⟩
      haveI h2 : IsTrans Entity (fun a b => a.number ≤ b.number) :=
        ⟨fun _ _ _ hab hbc => le_trans hab hbc⟩
      have hs : List.Sorted (fun a b => a.number ≤ b.number)
          (sortEnts entList) :=
        List.sorted_insertionSort (fun a b => a.number ≤ b.number) entList
      exact List.Pairwise.map _ (fun _ _ h => h) (List.Pairwise.filter _ hs)
  · intro entList grpList entGroups
    refine ⟨rfl, ?_⟩
    haveI h1 : IsTotal Group (fun a b => a.number ≤ b.number) :=
      ⟨fun a b => Int.le_total a.number b.number⟩
    haveI h2 : IsTrans Group (fun a b => a.number ≤ b.number) :=
      ⟨fun _ _ _ hab hbc => le_trans hab hbc⟩
    have hs : List.Sorted (fun a b => a.number ≤ b.number)
        (sortGroups grpList) :=
      List.sorted_insertionSort (fun a b => a.number ≤ b.number) grpList
    exact List.Pairwise.map _ (fun _ _ h => h) hs
  · intro m₁ m₂ hperm hnod
    have hkeys : (m₁.map Prod.fst).Perm (m₂.map Prod.fst) :=
      hperm.map Prod.fst
    have hsorted : sortKeys (m₁.map Prod.fst) = sortKeys (m₂.map Prod.fst) := by
      haveI : IsAntisymm String (fun a b => a ≤ b) :=
        ⟨fun a b h1 h2 => le_antisymm h1 h2⟩
      have hp : (sortKeys (m₁.map Prod.fst)).Perm
          (sortKeys (m₂.map Prod.fst)) :=
        (List.perm_insertionSort _ _).trans
          (hkeys.trans (List.perm_insertionSort _ _).symm)
      have hs1 : List.Sorted (fun a b : String => a ≤ b)
          (sortKeys (m₁.map Prod.fst)) := List.sorted_insertionSort _ _
      have hs2 : List.Sorted (fun a b : String => a ≤ b)
          (sortKeys (m₂.map Prod.fst)) := List.sorted_insertionSort _ _
      exact List.eq_of_perm_of_sorted hp hs1 hs2
    have hfun : (fun (k : String) (acc : List Nat) =>
        writeIndexRecord k ((mapLookup m₁ k).getD 0) ++ acc) =
        (fun (k : String) (acc : List Nat) =>
          writeIndexRecord k ((mapLookup m₂ k).getD 0) ++ acc) := by
      funext k acc
      rw [mapLookup_perm m₁ m₂ hperm hnod k]
    rw [writeIndexBytes, writeIndexBytes, hsorted, hfun]

theorem c8_determinism_amended_witness :
    writeIndexBytes [("b", 4), ("a", 0)] =
      writeIndexBytes [("a", 0), ("b", 4)] :=
  c8_determinism_amended.2.2 [("b", 4), ("a", 0)] [("a", 0), ("b", 4)]
    (List.Perm.swap ("a", 0) ("b", 4) []) (by decide)

/-- Claim C8 is false as stated for the cachefiller implementation: the
passwd cache entries are emitted in the iteration order of the `nc.entities`
Go map, which the Go runtime randomizes between runs.  Two runs over the
identical map content (the two permutations below) produce different flat
files, and the entries are not sorted by ascending numeric ID. -/
theorem c8_counterexample :
    ([("alice", ⟨"alice", 2001, some ⟨"staff", "", "/home/alice", "/bin/sh"⟩⟩),
      ("bob", ⟨"bob", 2002, some ⟨"staff", "", "/home/bob", "/bin/sh"⟩⟩)] :
      List (String × Entity)).Perm
     [("bob", ⟨"bob", 2002, some ⟨"staff", "", "/home/bob", "/bin/sh"⟩⟩),
      ("alice", ⟨"alice", 2001, some ⟨"staff", "", "/home/alice", "/bin/sh"⟩⟩)] ∧
    cfPasswdFile
      [("alice", ⟨"alice", 2001, some ⟨"staff", "", "/home/alice", "/bin/sh"⟩⟩),
       ("bob", ⟨"bob", 2002, some ⟨"staff", "", "/home/bob", "/bin/sh"⟩⟩)]
      [("staff", ⟨"staff", 2000⟩)] ≠
    cfPasswdFile
      [("bob", ⟨"bob", 2002, some ⟨"staff", "", "/home/bob", "/bin/sh"⟩⟩),
       ("alice", ⟨"alice", 2001, some ⟨"staff", "", "/home/alice", "/bin/sh"⟩⟩)]
      [("staff", ⟨"staff", 2000⟩)] ∧
    (fillPasswdEntries
      [("bob", ⟨"bob", 2002, some ⟨"staff", "", "/home/bob", "/bin/sh"⟩⟩),
       ("alice", ⟨"alice", 2001, some ⟨"staff", "", "/home/alice", "/bin/sh"⟩⟩)]
      [("staff", ⟨"staff", 2000⟩)]).map (fun p => p.uid) = [2002, 2001] ∧
    ¬ ((2002 : Nat) ≤ 2001) := by
  refine ⟨List.Perm.swap _ _ _, by decide, by decide, by decide⟩

/-! ## Supporting facts: the min-gid filter and primary groups -/

theorem mapLookup_mem {α : Type} (m : List (String × α)) (k : String) (v : α)
    (h : mapLookup m k = some v) : (k, v) ∈ m := by
  rcases Option.map_eq_some'.mp h with ⟨p, hf, hv⟩
  have hk : p.1 = k := by simpa using List.find?_some hf
  have hm : p ∈ m := List.mem_of_find?_eq_some hf
  have : p = (k, v) := by
    cases p
    simp only at hk hv
    rw [hk, hv]
  exact this ▸ hm

/-- Every group stored in `grpMap` (nsscached `main`) or `nc.groups`
(cachefiller `findGroups`) has a numeric ID at or above the min-gid
threshold. -/
theorem filterGroupsMap_values (grpList : List Group) (minGID : Int)
    (p : String × Group) (hp : p ∈ filterGroupsMap grpList minGID) :
    ¬ (p.2.number < minGID) := by
  rcases mem_buildMap _ grpList p hp with ⟨g, _, hf⟩
  by_cases hlt : g.number < minGID
  · rw [if_pos hlt] at hf
    cases hf
  · rw [if_neg hlt] at hf
    cases hf
    exact hlt

/-- Every line emitted by `genPasswd` belongs to an entity whose primary
group was found in `grpMap`; with `grpMap` built by the min-gid filter this
is the second half of the C2 property, which does hold. -/
theorem genPasswd_primary_group_valid (cfg : Config)
    (grpList : List Group) (e : Entity) (l : String)
    (h : passwdLine cfg (filterGroupsMap grpList cfg.minGID) e = some l) :
    ∃ m grp, e.meta = some m ∧
      mapLookup (filterGroupsMap grpList cfg.minGID) m.primaryGroup =
        some grp ∧ ¬ (grp.number < cfg.minGID) := by
  rw [passwdLine] at h
  by_cases hn : e.number < cfg.minUID
  · rw [if_pos hn] at h; cases h
  · rw [if_neg hn] at h
    cases hm : e.meta with
    | none => rw [hm] at h; simp at h
    | some m =>
      rw [hm] at h
      cases hg : mapLookup (filterGroupsMap grpList cfg.minGID)
          m.primaryGroup with
      | none => simp [hg] at h
      | some grp =>
        refine ⟨m, grp, rfl, hg, ?_⟩
        exact filterGroupsMap_values grpList cfg.minGID (m.primaryGroup, grp)
          (mapLookup_mem _ _ _ hg)

end Nss
